import Mathlib

/-!
# Verification of the documentation crawl/index/search pipeline and job queue

This file embeds, in Lean, the core functions of the repository:

* `app/services/embedding.py` — `chunk_text`, `generate_embedding`,
  `search_by_similarity`;
* `app/services/docs.py` — `normalize_url` (together with the relevant part of
  CPython's `urllib.parse.urlparse`), `crawl_documentation`,
  `search_by_keywords`;
* `app/services/queue_memory.py` — the in-memory job table: `enqueue_job`,
  `process_job` (split into its two lock-protected sections), `cancel_job`.

Strings are embedded as `List Char` (`Str`), machine reals used for similarity
scores as `ℚ`.  Every definition is executable, so each theorem is exercised on
concrete inputs.
-/

abbrev Str := List Char

/-- Whitespace set used by Python's `str.strip()` and by `\s` in `re` for the
ASCII range: space, tab, newline, carriage return, vertical tab, form feed.
(Non-ASCII Unicode whitespace is not modelled; all inputs considered here are
ASCII.) -/
def isPySpace (c : Char) : Bool :=
  c = ' ' || c = '\t' || c = '\n' || c = '\r' || c = Char.ofNat 11 || c = Char.ofNat 12

/-- `text.split('\n')` — split at every newline, keeping empty pieces. -/
def splitOnNl : Str → List Str
  | [] => [[]]
  | c :: rest =>
    if c = '\n' then [] :: splitOnNl rest
    else
      match splitOnNl rest with
      | [] => [[c]]
      | p :: ps => (c :: p) :: ps

/-- Python `str.strip()` (ASCII whitespace). -/
def pyStrip (s : Str) : Str :=
  ((s.dropWhile isPySpace).reverse.dropWhile isPySpace).reverse

/-- `[p.strip() for p in text.split('\n') if p.strip()]` from `chunk_text`. -/
def paragraphsOf (text : Str) : List Str :=
  ((splitOnNl text).map pyStrip).filter (fun p => p ≠ [])

/-- Sentence-terminating punctuation of the regex `(?<=[.!?])\s+`. -/
def isTermPunct (c : Char) : Bool := c = '.' || c = '!' || c = '?'

/-- Does `cur` end in `.`, `!` or `?` (the lookbehind of the sentence split)? -/
def endsTerm (cur : Str) : Bool :=
  match cur.getLast? with
  | some c => isTermPunct c
  | none => false

/-- One-pass model of `re.split(r'(?<=[.!?])\s+', p)`.
`cur` is the piece being built; when `inGap` is true, `cur` is a finished piece
and we are consuming the whitespace run that separated it from the next piece. -/
def sentAux (cur : Str) (inGap : Bool) : Str → List Str
  | [] => if inGap then [cur, []] else [cur]
  | c :: rest =>
    if inGap then
      if isPySpace c then sentAux cur true rest
      else cur :: sentAux [c] false rest
    else
      if isPySpace c && endsTerm cur then sentAux cur true rest
      else sentAux (cur ++ [c]) false rest

/-- `re.split(r'(?<=[.!?])\s+', paragraph)` of `chunk_text`. -/
def splitSentences (p : Str) : List Str := sentAux [] false p

/-- Accumulator of the `chunk_text` loop: the flushed `chunks` list and the
`current_chunk` buffer. -/
structure ChunkAcc where
  chunks : List Str
  cur : Str
deriving DecidableEq

/-- One unit (a sentence or a whole short paragraph) being appended by
`chunk_text`'s greedy loop:
```
if len(current_chunk) + len(u) + 1 <= max_length:
    current_chunk += " " + u if current_chunk else u
else:
    if current_chunk: chunks.append(current_chunk)
    current_chunk = u
``` -/
def addUnit (maxLen : Nat) (s : ChunkAcc) (u : Str) : ChunkAcc :=
  if s.cur.length + u.length + 1 ≤ maxLen then
    { s with cur := if s.cur = [] then u else s.cur ++ ' ' :: u }
  else
    { chunks := if s.cur = [] then s.chunks else s.chunks ++ [s.cur], cur := u }

/-- The per-paragraph step of `chunk_text`: a paragraph longer than
`max_length` is first split into sentences, otherwise it is one unit. -/
def paraStep (maxLen : Nat) (s : ChunkAcc) (p : Str) : ChunkAcc :=
  if p.length > maxLen then (splitSentences p).foldl (addUnit maxLen) s
  else addUnit maxLen s p

/-- `chunk_text(text, max_length)` of `app/services/embedding.py`. -/
def chunk_text (text : Str) (maxLen : Nat) : List Str :=
  if text = [] then []
  else
    let fin := (paragraphsOf text).foldl (paraStep maxLen) ⟨[], []⟩
    fin.chunks ++ (if fin.cur = [] then [] else [fin.cur])

example : chunk_text "ab cd. ef".toList 5 = ["ab cd.".toList, "ef".toList] := by decide
example : chunk_text "ab\ncd".toList 5 = ["ab cd".toList] := by decide
example : chunk_text "ab\ncd".toList 4 = ["ab".toList, "cd".toList] := by decide
example : chunk_text "".toList 4 = [] := by decide

/-! ## `urllib.parse.urlparse` (CPython 3.11) and `normalize_url`

`normalize_url` in `app/services/docs.py` is
`f"{urlparse(url).netloc}{urlparse(url).path}".rstrip('/')`, so we embed the
netloc/path computation of CPython 3.11's `urlparse`.  Two checks that only
concern exotic hosts are modelled conservatively as parse failures (`none`):
a netloc containing `[` or `]` (Python validates the bracketed IPv6 host and
raises when it is malformed) and a netloc containing non-ASCII characters
(Python applies an NFKC-based check).  Every input appearing in a theorem
below is bracket-free and ASCII, where the model agrees with CPython exactly.
-/

/-- `_WHATWG_C0_CONTROL_OR_SPACE`: C0 controls and space, stripped from the
left of the URL by `urlsplit`. -/
def isC0OrSpace (c : Char) : Bool := c.toNat ≤ 0x20

/-- `urlsplit` removes every tab, carriage return and newline. -/
def removeUnsafe (u : Str) : Str :=
  u.filter (fun c => ¬ (c = '\t' || c = '\r' || c = '\n'))

def isAsciiAlpha (c : Char) : Bool :=
  ('a' ≤ c && c ≤ 'z') || ('A' ≤ c && c ≤ 'Z')

def isAsciiDigit (c : Char) : Bool := '0' ≤ c && c ≤ '9'

/-- `scheme_chars` of `urllib.parse`. -/
def isSchemeChar (c : Char) : Bool :=
  isAsciiAlpha c || isAsciiDigit c || c = '+' || c = '-' || c = '.'

/-- Scheme recognition of `urlsplit`: if the first `:` occurs at index `i > 0`,
the first character is an ASCII letter and the characters before the `:` are
scheme characters, everything up to and including the `:` is removed (the
scheme itself is irrelevant to `normalize_url`). -/
def splitScheme (u : Str) : Str :=
  match u.findIdx? (· = ':') with
  | none => u
  | some i =>
    if 0 < i ∧ (match u.head? with
                | some c => isAsciiAlpha c
                | none => false) = true
       ∧ ((u.take i).drop 1).all isSchemeChar then
      u.drop (i + 1)
    else u

/-- `_splitnetloc(url, 2)`: the netloc runs from index 2 to the first of
`/`, `?`, `#` (or the end). Returns `(netloc, rest)`. -/
def splitNetloc (u : Str) : Str × Str :=
  let body := u.drop 2
  let i := body.findIdx (fun c => c = '/' || c = '?' || c = '#')
  (body.take i, body.drop i)

/-- Combined netloc validation (`[`/`]` handling and `_checknetloc`), see the
module comment above: bracketed and non-ASCII netlocs are conservatively
rejected. -/
def netlocOk (n : Str) : Bool :=
  ¬ n.contains '[' && ¬ n.contains ']' && n.all (fun c => c.toNat ≤ 127)

/-- `url.split(c, 1)[0]` — used for the fragment and query splits. -/
def takeUntil (stop : Char) (u : Str) : Str := u.takeWhile (· ≠ stop)

/-- First index of `c` in `l` at position `≥ start` (`str.find(c, start)`). -/
def findFrom (c : Char) (start : Nat) (l : Str) : Option Nat :=
  ((l.drop start).findIdx? (· = c)).map (· + start)

/-- `str.rfind(c)` for a character known to occur: index of last occurrence. -/
def lastIdxOf (c : Char) (l : Str) : Nat :=
  l.length - 1 - l.reverse.findIdx (· = c)

/-- `_splitparams` as used by `urlparse`: drop `;params` from the last path
segment. -/
def splitParams (p : Str) : Str :=
  if p.contains ';' then
    if p.contains '/' then
      match findFrom ';' (lastIdxOf '/' p) p with
      | none => p
      | some i => p.take i
    else p.take (p.findIdx (· = ';'))
  else p

/-- The `(netloc, path)` of CPython 3.11 `urlparse` (see module comment for
the two conservative restrictions). -/
def urlparseNetlocPath (u0 : Str) : Option (Str × Str) :=
  let u1 := removeUnsafe (u0.dropWhile isC0OrSpace)
  let u2 := splitScheme u1
  if u2.take 2 = "//".toList then
    let (netloc, rest) := splitNetloc u2
    if netlocOk netloc then
      some (netloc, splitParams (takeUntil '?' (takeUntil '#' rest)))
    else none
  else
    some ([], splitParams (takeUntil '?' (takeUntil '#' u2)))

/-- Python `str.rstrip('/')`. -/
def rstripSlash (s : Str) : Str := (s.reverse.dropWhile (· = '/')).reverse

/-- `normalize_url` of `app/services/docs.py`:
`f"{parsed.netloc}{parsed.path}".rstrip('/')`.  `none` models an exception
escaping `urlparse`. -/
def normalize_url (u : Str) : Option Str :=
  (urlparseNetlocPath u).map (fun np => rstripSlash (np.1 ++ np.2))

example : normalize_url "http://example.com:8080/docs".toList
    = some "example.com:8080/docs".toList := by decide
example : normalize_url "example.com:8080/docs".toList
    = some "8080/docs".toList := by decide
example : normalize_url "http://h/a/".toList = some "h/a".toList := by decide

/-! ## `crawl_documentation` (`app/services/docs.py`)

The crawl loop is embedded with explicit fuel (the loop itself carries no
structural bound; a separate theorem shows that enough fuel always exists, so
the loop terminates).  The network is a parameter `fetch : Url → Option Page`
(`none` = the `requests` call raised, which the loop catches and skips) and the
compiled exclusion regexes are a parameter `excl : Url → Bool`
(`pattern.search(current_url)` matched).  `none` at the outer level models an
exception escaping the loop itself (a `ValueError` from `urlparse`, which is
*not* inside the per-page `try`).  The trace field `writes` records every
assignment to `doc_status[...]["total_pages"]` together with `len(visited)`
and `len(to_visit)` at the moment of the write. -/

abbrev Url := List Char

/-- The part of `fetch_documentation`'s result that the crawl loop uses. -/
structure Page where
  content : Str
  links : List Url
deriving DecidableEq

/-- One write to `total_pages`: the value written, and the sizes of the
visited set and the pending list at the moment of the write. -/
structure TotalWrite where
  value : Nat
  vis : Nat
  pend : Nat
deriving DecidableEq

structure CrawlSt where
  /-- Normalized URLs, most recently visited first (`visited` set). -/
  visited : List Url
  /-- Pending `(url, depth)` entries (`to_visit` list), raw URLs. -/
  toVisit : List (Url × Nat)
  /-- `pages_count`. -/
  pagesCount : Nat
  /-- `pages` dict: normalized URL → page, in insertion order. -/
  pages : List (Url × Page)
  /-- Trace: normalized form of each URL passed to `fetch_documentation`,
  in fetch order. -/
  fetchedNorm : List Url
  /-- Trace of `total_pages` writes so far. -/
  writes : List TotalWrite
deriving DecidableEq

/-- `MAX_PAGES` of `app/services/docs.py`. -/
def MAX_PAGES : Nat := 50

/-- The result of one test of the `while` condition plus (when it holds) one
iteration of the loop body of `crawl_documentation`:
`done` = the loop exits (condition false), `fail` = an exception escapes the
loop (a `ValueError` from the `normalize_url` call that is outside the
per-page `try`), `next` = one more iteration ending in the given state. -/
inductive StepRes where
  | done (s : CrawlSt)
  | fail
  | next (s : CrawlSt)
deriving DecidableEq

/-- One test-plus-iteration of the `while to_visit and len(visited) <
MAX_PAGES:` loop of `crawl_documentation`. -/
def crawlStep (fetch : Url → Option Page) (excl : Url → Bool) (maxDepth : Nat)
    (s : CrawlSt) : StepRes :=
  match s.toVisit with
  | [] => .done s
  | (cur, depth) :: rest =>
    if MAX_PAGES ≤ s.visited.length then .done s
    else
      match normalize_url cur with
      | none => .fail
      | some nurl =>
        if nurl ∈ s.visited then .next { s with toVisit := rest }
        else if excl cur then .next { s with toVisit := rest }
        else
          let visited' := nurl :: s.visited
          let fetched' := s.fetchedNorm ++ [nurl]
          let pc' := s.pagesCount + 1
          match fetch cur with
          | none =>
            -- fetch raised; caught, page skipped
            .next { s with visited := visited', toVisit := rest, pagesCount := pc',
                           fetchedNorm := fetched' }
          | some page =>
            let pages' := s.pages ++ [(nurl, page)]
            if depth < maxDepth then
              match page.links.mapM normalize_url with
              | none =>
                -- normalize_url raised inside the link comprehension;
                -- caught by the same except, page already stored
                .next { s with visited := visited', toVisit := rest, pagesCount := pc',
                               pages := pages', fetchedNorm := fetched' }
              | some nlinks =>
                let newLinks := ((page.links.zip nlinks).filter
                  (fun ln => ln.2 ∉ visited')).map (fun ln => (ln.1, depth + 1))
                let toVisit' := rest ++ newLinks
                let w : TotalWrite :=
                  ⟨visited'.length + toVisit'.length, visited'.length, toVisit'.length⟩
                .next { visited := visited', toVisit := toVisit', pagesCount := pc',
                        pages := pages', fetchedNorm := fetched',
                        writes := s.writes ++ [w] }
            else
              .next { s with visited := visited', toVisit := rest, pagesCount := pc',
                             pages := pages', fetchedNorm := fetched' }

/-- The crawl loop, with explicit fuel (the loop has no structural bound; a
separate theorem shows enough fuel always exists).  `none` = fuel exhausted,
`some none` = an exception escaped the loop, `some (some s)` = the loop
finished in state `s`. -/
def crawlLoop (fetch : Url → Option Page) (excl : Url → Bool) (maxDepth : Nat) :
    Nat → CrawlSt → Option (Option CrawlSt)
  | 0, _ => none
  | fuel + 1, s =>
    match crawlStep fetch excl maxDepth s with
    | .done s' => some (some s')
    | .fail => some none
    | .next s' => crawlLoop fetch excl maxDepth fuel s'

/-- Initial state of `crawl_documentation(base_url, ...)`: pending list seeded
with `(base_url, 0)` and the initial `doc_status` record whose `total_pages`
is 1 (at that moment `len(visited) = 0`, `len(to_visit) = 1`). -/
def crawlInit (baseUrl : Url) : CrawlSt :=
  { visited := [], toVisit := [(baseUrl, 0)], pagesCount := 0, pages := [],
    fetchedNorm := [], writes := [⟨1, 0, 1⟩] }

/-- `crawl_documentation` (its final status update writes
`total_pages = pages_count`; that write is `finalTotalWrite` below). -/
def crawl_documentation (fetch : Url → Option Page) (excl : Url → Bool)
    (maxDepth : Nat) (baseUrl : Url) (fuel : Nat) : Option (Option CrawlSt) :=
  crawlLoop fetch excl maxDepth fuel (crawlInit baseUrl)

/-- The final `doc_status[doc_id]["total_pages"] = pages_count` write of
`crawl_documentation`, with the loop-exit values of `len(visited)` and
`len(to_visit)`. -/
def finalTotalWrite (s : CrawlSt) : TotalWrite :=
  ⟨s.pagesCount, s.visited.length, s.toVisit.length⟩

/-- The sequence of values written to `total_pages` over the whole crawl,
in program order (initial estimate, in-loop updates, final write). -/
def totalWritesSeq (s : CrawlSt) : List Nat :=
  (s.writes ++ [finalTotalWrite s]).map TotalWrite.value

/-! ## The in-memory job queue (`app/services/queue_memory.py`)

The `jobs` dict and the `queues` dict are embedded as association lists with
Python-dict update semantics (an existing key is updated in place, a new key
is appended).  Each operation below is one of the `with lock:` critical
sections of the source, so any interleaved execution of the Python code is a
sequential composition of these functions.  `process_job` has two critical
sections: `processStart` (the transition to `in_progress`) and
`processFinish` (the write of the task outcome); the task body itself runs
between them, outside the lock, and is represented by the `outcome` argument
(`Except.ok` = the function returned, `Except.error` = it raised).  Job
results have an abstract type `ρ`; timestamps (`datetime.now().isoformat()`)
are abstract `Nat` arguments. -/

def assocSet {κ β : Type} [DecidableEq κ] : List (κ × β) → κ → β → List (κ × β)
  | [], k, v => [(k, v)]
  | (k', v') :: rest, k, v =>
    if k' = k then (k, v) :: rest else (k', v') :: assocSet rest k v

/-- A record of the `jobs` table (the fields the claims are about; `func`,
`args`, `kwargs` and `timeout` do not affect any state transition and are
omitted). -/
structure Job (ρ : Type) where
  status : String
  queue : String
  enqueuedAt : Nat
  startedAt : Option Nat
  endedAt : Option Nat
  result : Option ρ
  error : Option String
deriving DecidableEq

/-- The shared state guarded by `lock`: the `jobs` dict and the `queues`
dict. -/
structure QState (ρ : Type) where
  jobs : List (String × Job ρ)
  queues : List (String × List String)
deriving DecidableEq

/-- `enqueue_job`: create a `queued` job record, append its id to the named
queue (creating the queue list if needed).  The `executor.submit` only
schedules `process_job`, whose effects are `processStart`/`processFinish`. -/
def enqueue_job {ρ : Type} (st : QState ρ) (jobId queueName : String) (now : Nat) :
    QState ρ :=
  let job : Job ρ := { status := "queued", queue := queueName, enqueuedAt := now,
                       startedAt := none, endedAt := none, result := none,
                       error := none }
  { jobs := assocSet st.jobs jobId job,
    queues :=
      match st.queues.lookup queueName with
      | none => st.queues ++ [(queueName, [jobId])]
      | some l => assocSet st.queues queueName (l ++ [jobId]) }

/-- First critical section of `process_job`: if the job id is present, set
`in_progress` and `started_at` (note: unconditionally on the current
status). -/
def processStart {ρ : Type} (st : QState ρ) (jobId : String) (now : Nat) :
    QState ρ :=
  match st.jobs.lookup jobId with
  | none => st
  | some j =>
    let j' := { j with status := "in_progress", startedAt := some now }
    { st with jobs := assocSet st.jobs jobId j' }

/-- Second critical section of `process_job`: store the task outcome.  The
guard is `if job_id in jobs:` — presence of the id, nothing else. -/
def processFinish {ρ : Type} (st : QState ρ) (jobId : String)
    (outcome : Except String ρ) (now : Nat) : QState ρ :=
  match st.jobs.lookup jobId with
  | none => st
  | some j =>
    match outcome with
    | .ok r =>
      let j' := { j with result := some r, status := "completed", endedAt := some now }
      { st with jobs := assocSet st.jobs jobId j' }
    | .error e =>
      let j' := { j with status := "failed", error := some e, endedAt := some now }
      { st with jobs := assocSet st.jobs jobId j' }

/-- `cancel_job`: only a `queued` or `in_progress` job is cancelled (status,
end timestamp, removal of the first queue-list occurrence); any other case
returns `False` and changes nothing. -/
def cancel_job {ρ : Type} (st : QState ρ) (jobId : String) (now : Nat) :
    Bool × QState ρ :=
  match st.jobs.lookup jobId with
  | none => (false, st)
  | some j =>
    if j.status = "queued" ∨ j.status = "in_progress" then
      let j' := { j with status := "cancelled", endedAt := some now }
      let queues' :=
        match st.queues.lookup j.queue with
        | none => st.queues
        | some l =>
          if jobId ∈ l then assocSet st.queues j.queue (l.erase jobId)
          else st.queues
      (true, { jobs := assocSet st.jobs jobId j', queues := queues' })
    else (false, st)

/-! ## `generate_embedding` (`app/services/embedding.py`)

The sentence-transformer model is a parameter `encode` (`none` = `get_model`
or `model.encode` raised, which the source catches).  The input is
`Option Str` (`none` = Python `None`); `if not text or not isinstance(text,
str)` is the `none`/empty guard. -/

def zeroVec : List ℚ := List.replicate 384 0

def generate_embedding (encode : Str → Option (List ℚ)) :
    Option Str → List ℚ
  | none => zeroVec
  | some t =>
    if t = [] then zeroVec
    else
      match encode t with
      | some v => v
      | none => zeroVec

/-! ## `search_by_similarity` (`app/services/embedding.py`)

`cosine_similarity([query_embedding], embeddings)[0]` is a row of similarity
scores; the cosine computation itself is floating point and is abstracted as a
parameter `cos` (for unit-length rational vectors the exact cosine is the dot
product `dotQ`, used in the concrete instances).  `np.argsort(sims)` uses the
default quicksort, which is *unstable*: all it guarantees is a permutation of
the indices whose keys are ascending — the relative order of equal keys is
unspecified and can vary with the array size.  That contract is captured by
`IsArgsortOf` below, and the ordering properties are proved for *every* index
order satisfying it.  So that the embedded function still computes, the
executable `argsortTop` picks one such order (ascending, ties by smaller
index first — on the two-element arrays evaluated concretely below this is
also exactly what NumPy produces, since its sort performs no swap there).
The source then reverses the order (`[::-1]`) and truncates to `top_k`. -/

def dotQ (u v : List ℚ) : ℚ := ((u.zip v).map (fun p => p.1 * p.2)).sum

/-- The comparison `np.argsort` sorts indices by: similarity ascending, ties
by index ascending. -/
def simLE (sims : List ℚ) (i j : Nat) : Prop :=
  sims.getD i 0 < sims.getD j 0 ∨ (sims.getD i 0 = sims.getD j 0 ∧ i ≤ j)

instance (sims : List ℚ) : DecidableRel (simLE sims) := fun i j => by
  unfold simLE; infer_instance

/-- `np.argsort(similarities)[::-1][:top_k]`. -/
def argsortTop (sims : List ℚ) (topK : Nat) : List Nat :=
  ((List.insertionSort (simLE sims) (List.range sims.length)).reverse).take topK

/-- `search_by_similarity(query_embedding, embeddings, texts, top_k)`. -/
def search_by_similarity (cos : List ℚ → List ℚ → ℚ) (queryEmb : List ℚ)
    (embeddings : List (List ℚ)) (texts : List String) (topK : Nat) :
    List (String × ℚ) :=
  if embeddings = [] ∨ embeddings.length ≠ texts.length then []
  else
    let sims := embeddings.map (fun e => cos queryEmb e)
    (argsortTop sims topK).map (fun i => (texts.getD i "", sims.getD i 0))

/-- What `np.argsort(sims)` guarantees for *any* sort kind: the result is a
permutation of the chunk indices whose similarity keys are ascending.  The
default quicksort is unstable, so nothing more — in particular no tie
order — may be assumed. -/
def IsArgsortOf (sims : List ℚ) (order : List Nat) : Prop :=
  order.Perm (List.range sims.length) ∧
  List.Pairwise (fun i j => sims.getD i 0 ≤ sims.getD j 0) order

/-- The tail of `search_by_similarity` — `[::-1]`, `[:top_k]` and result
construction — applied to an arbitrary `np.argsort` output `order`. -/
def searchFromOrder (sims : List ℚ) (texts : List String) (topK : Nat)
    (order : List Nat) : List (String × ℚ) :=
  if sims = [] ∨ sims.length ≠ texts.length then []
  else (order.reverse.take topK).map (fun i => (texts.getD i "", sims.getD i 0))

example :
    search_by_similarity dotQ [1, 0] [[0, 1], [1, 0]] ["a", "b"] 5
      = [("b", 1), ("a", 0)] := by
  simp [search_by_similarity, argsortTop, dotQ, List.insertionSort,
        List.orderedInsert, simLE, List.range, List.range.loop]
example :
    search_by_similarity dotQ [1, 0] [[1, 0], [1, 0]] ["a", "b"] 5
      = [("b", 1), ("a", 1)] := by
  simp [search_by_similarity, argsortTop, dotQ, List.insertionSort,
        List.orderedInsert, simLE, List.range, List.range.loop]

/-! ## `search_by_keywords` (`app/services/docs.py`)

The fallback keyword search.  `doc_index[doc_id]` and `doc_cache[doc_id]` are
`Option` parameters (`none` = key absent, so the body raises and the outer
`except` returns `[]`).  Python iterates `query_words` (a `set`) in an
unspecified order; it is modelled as the deduplicated token list in first-
occurrence order.  The page scores are accumulated in that order, and
`sorted(..., reverse=True)` is Python's stable sort, modelled by
`List.insertionSort` on the non-strict "greater or equally placed" order. -/

/-- `\w` of Python `re` restricted to ASCII (all inputs considered are
ASCII): letters, digits, underscore. -/
def isWordChar (c : Char) : Bool :=
  isAsciiAlpha c || isAsciiDigit c || c = '_'

/-- `re.findall(r'\b\w+\b', s)`: the maximal runs of word characters.  (For
`\w+` runs, the surrounding `\b` anchors are automatically satisfied.) -/
def wordRuns : Str → List Str
  | [] => []
  | c :: rest =>
    if isWordChar c then
      match wordRuns rest with
      | [] => [[c]]
      | r :: rs =>
        match rest with
        | [] => [[c]]
        | d :: _ => if isWordChar d then (c :: r) :: rs else [c] :: r :: rs
    else wordRuns rest

/-- Python `str.lower()` (ASCII). -/
def pyLower (s : Str) : Str := s.map Char.toLower

/-- First-occurrence deduplication. -/
def dedupFirstAux (seen : List Str) : List Str → List Str
  | [] => []
  | x :: xs =>
    if x ∈ seen then dedupFirstAux seen xs
    else x :: dedupFirstAux (seen ++ [x]) xs

def dedupFirst (l : List Str) : List Str := dedupFirstAux [] l

/-- `set(re.findall(r'\b\w+\b', query.lower()))`, as the deduplicated list of
tokens in first-occurrence order (a deterministic refinement of Python's
unspecified set-iteration order; no property proved below depends on the
order). -/
def queryWords (query : Str) : List Str := dedupFirst (wordRuns (pyLower query))

/-- The `index["keywords"]` inverted index: word → page urls. -/
structure KeywordIndex where
  keywords : List (Str × List Str)
deriving DecidableEq

/-- An entry of the per-document `pages` dict in `doc_cache`. -/
structure PageData where
  url : Str
  title : Str
  content : Str
deriving DecidableEq

/-- A search result produced by `search_by_keywords`. -/
structure KwResult where
  url : Str
  title : Str
  text : Str
  similarity : ℚ
deriving DecidableEq

/-- The score-accumulation loop: for each query word of length > 3 appearing
in the inverted index, add 1 to every listed page.  Pages enter the dict in
encounter order. -/
def pageScores (kw : KeywordIndex) (qws : List Str) : List (Str × Nat) :=
  qws.foldl
    (fun acc w =>
      if w.length > 3 then
        match kw.keywords.lookup w with
        | none => acc
        | some urls =>
          urls.foldl
            (fun acc' u =>
              match acc'.lookup u with
              | none => acc' ++ [(u, 1)]
              | some n => assocSet acc' u (n + 1))
            acc
      else acc)
    []

/-- Python's substring test `needle in hay`. -/
def hasSub (needle : Str) : Str → Bool
  | [] => needle.isPrefixOf []
  | c :: rest => needle.isPrefixOf (c :: rest) || hasSub needle rest

/-- `" ".join(parts)`. -/
def joinSpace (parts : List Str) : Str := List.intercalate [' '] parts

/-- `search_by_keywords(url, query)`.  `index`/`cache` are
`doc_index.get(doc_id)` and `doc_cache.get(doc_id)` (the whole body is inside
one `try`, so a missing key — the explicit `ValueError` or the `KeyError` —
and any `ValueError` from `normalize_url` all fall to `except: return []`).
`sorted(..., key=score, reverse=True)` is Python's stable descending sort,
modelled by `insertionSort` on `b.2 ≤ a.2` (which is stable for ties in the
same way). -/
def kwStep (pages : List (Str × PageData)) (qws : List Str)
    (acc : Option (List KwResult)) (pu : Str × Nat) : Option (List KwResult) :=
  match acc with
  | none => none
  | some res =>
    match normalize_url pu.1 with
    | none => none
    | some nu =>
      match pages.lookup nu with
      | none => some res
      | some pd =>
        let relevance : ℚ :=
          min ((pu.2 : ℚ) / ((max qws.length 1 : Nat) : ℚ)) 1
        let paragraphs := splitOnNl pd.content
        let relPars := paragraphs.filter
          (fun par => qws.any
            (fun w => w.length > 3 && hasSub (pyLower w) (pyLower par)))
        let chosen :=
          if relPars = [] ∧ paragraphs ≠ [] then paragraphs.take 2
          else relPars
        let excerpt := (joinSpace chosen).take 1000 ++ "...".toList
        some (res ++ [⟨pd.url, pd.title, excerpt, relevance⟩])

def search_by_keywords (index : Option KeywordIndex)
    (cache : Option (List (Str × PageData))) (query : Str) : List KwResult :=
  match index with
  | none => []
  | some kw =>
    match cache with
    | none => []
    | some pages =>
      let qws := queryWords query
      let ranked :=
        (List.insertionSort (fun a b : Str × Nat => b.2 ≤ a.2)
          (pageScores kw qws)).take 5
      match ranked.foldl (kwStep pages qws) (some []) with
      | none => []
      | some res => res

/-! # Claims -/

/-- **C8**: for every invalid embedding input — the empty string or `None` —
`generate_embedding` returns the all-zero vector of dimension 384 and does
not raise (whatever the model `encode` does, it is never consulted). -/
theorem generate_embedding_invalid_input (encode : Str → Option (List ℚ)) :
    generate_embedding encode none = List.replicate 384 0 ∧
    generate_embedding encode (some []) = List.replicate 384 0 :=
  ⟨rfl, rfl⟩

/-- **C9**: `cancel_job` on a job in a terminal state (`completed`, `failed`,
`cancelled`) or on an unknown job id returns `False` and leaves the job table
and every queue list unchanged. -/
theorem cancel_job_terminal_or_unknown_noop (ρ : Type) (st : QState ρ)
    (jobId : String) (now : Nat)
    (h : st.jobs.lookup jobId = none ∨
         ∃ j, st.jobs.lookup jobId = some j ∧
           (j.status = "completed" ∨ j.status = "failed" ∨ j.status = "cancelled")) :
    cancel_job st jobId now = (false, st) := by
  unfold cancel_job
  rcases h with h | ⟨j, hj, hs⟩
  · rw [h]
  · rw [hj]
    rcases hs with h1 | h1 | h1 <;> simp [h1]

/-- A job table holding one completed job, for the C9 witness. -/
def c9St : QState Nat :=
  { jobs := [("a", { status := "completed", queue := "default", enqueuedAt := 0,
                     startedAt := some 1, endedAt := some 2, result := some 7,
                     error := none })],
    queues := [("default", [])] }

theorem cancel_job_terminal_or_unknown_noop_witness :
    (c9St.jobs.lookup "a" = none ∨
     ∃ j, c9St.jobs.lookup "a" = some j ∧
       (j.status = "completed" ∨ j.status = "failed" ∨ j.status = "cancelled")) ∧
    cancel_job c9St "a" 5 = (false, c9St) :=
  ⟨Or.inr ⟨_, rfl, Or.inl rfl⟩,
   cancel_job_terminal_or_unknown_noop Nat c9St "a" 5 (Or.inr ⟨_, rfl, Or.inl rfl⟩)⟩

/-! **C1** concerns the interleaving `enqueue → cancel → process_job`.  The
claim (and §4.6 of the spec, and the source's own comment
`# Verificar que el trabajo no haya sido cancelado`) say the task outcome is
discarded when the job was cancelled.  The code's recheck is only
`if job_id in jobs:` — and `cancel_job` never removes the id from `jobs` — so
the outcome overwrites the cancelled state.  The theorem below evaluates the
model at this failing interleaving. -/

def c1St0 : QState Nat := enqueue_job { jobs := [], queues := [] } "job1" "documentation" 10
def c1St1 : QState Nat := (cancel_job c1St0 "job1" 11).2
def c1St2 : QState Nat := processStart c1St1 "job1" 12
def c1St3 : QState Nat := processFinish c1St2 "job1" (Except.ok 7) 13

/-- **C1** (violated by the code): a job cancelled while its task body is
still pending is first `cancelled`, but once the task body finishes,
`process_job`'s presence-only recheck lets the outcome overwrite the
cancellation: the terminal `cancelled` state is not final. -/
theorem cancelled_job_overwritten_by_outcome :
    (cancel_job c1St0 "job1" 11).1 = true ∧
    (c1St1.jobs.lookup "job1").map Job.status = some "cancelled" ∧
    (c1St2.jobs.lookup "job1").map Job.status = some "in_progress" ∧
    (c1St3.jobs.lookup "job1").map Job.status = some "completed" := by
  decide

/-- **C7** counterexample: `normalize_url` is not idempotent.  A URL with an
explicit port survives one normalization as `example.com:8080/docs`, but
re-parsing that string treats `example.com:` as a scheme, so the second
normalization yields `8080/docs`. -/
theorem normalize_url_not_idempotent :
    normalize_url "http://example.com:8080/docs".toList
        = some "example.com:8080/docs".toList ∧
    (normalize_url "http://example.com:8080/docs".toList).bind normalize_url
        = some "8080/docs".toList ∧
    (normalize_url "http://example.com:8080/docs".toList).bind normalize_url
        ≠ normalize_url "http://example.com:8080/docs".toList := by
  decide

theorem findIdx?_eq_none_of_contains_false (l : Str) (c : Char)
    (h : l.contains c = false) : l.findIdx? (· = c) = none := by
  induction l with
  | nil => rfl
  | cons x xs ih =>
    simp only [List.contains_cons, Bool.or_eq_false_iff] at h
    have hx : ¬ (x = c) := by
      intro he; rw [he] at h; simp at h
    simp [List.findIdx?_cons, hx, ih h.2]

theorem takeUntil_of_contains_false (l : Str) (c : Char)
    (h : l.contains c = false) : takeUntil c l = l := by
  induction l with
  | nil => rfl
  | cons x xs ih =>
    simp only [List.contains_cons, Bool.or_eq_false_iff] at h
    have hx : decide (¬ (x = c)) = true := by
      simp only [decide_eq_true_eq]
      intro he; rw [he] at h; simp at h
    show List.takeWhile _ (x :: xs) = x :: xs
    rw [List.takeWhile_cons, if_pos hx]
    exact congrArg (x :: ·) (ih h.2)

theorem dropWhile_idem (p : Char → Bool) (l : Str) :
    (l.dropWhile p).dropWhile p = l.dropWhile p := by
  induction l with
  | nil => rfl
  | cons x xs ih =>
    by_cases h : p x <;> simp [List.dropWhile_cons, h, ih]

theorem rstripSlash_idem (s : Str) : rstripSlash (rstripSlash s) = rstripSlash s := by
  unfold rstripSlash
  rw [List.reverse_reverse, dropWhile_idem]

/-- **C7** (amended): `normalize_url` is idempotent on every URL whose
normalized form is "plain": it contains no `:`, `;`, `#` or `?`, does not
begin with `//` or with a control/space character, and contains no
tab/CR/LF.  (The counterexample `normalize_url_not_idempotent` shows the
unrestricted claim fails: a `:` in the normalized form — e.g. from a port —
is re-parsed as a scheme delimiter.) -/
theorem normalize_url_idempotent_on_plain (u s : Str)
    (h : normalize_url u = some s)
    (h1 : s.dropWhile isC0OrSpace = s)
    (h2 : removeUnsafe s = s)
    (h3 : s.contains ':' = false) (h4 : s.contains ';' = false)
    (h5 : s.contains '#' = false) (h6 : s.contains '?' = false)
    (h7 : s.take 2 ≠ "//".toList) :
    normalize_url s = some s := by
  have hrs : rstripSlash s = s := by
    unfold normalize_url at h
    cases hp : urlparseNetlocPath u with
    | none => rw [hp] at h; exact Option.noConfusion h
    | some np =>
      rw [hp] at h
      have h' : some (rstripSlash (np.1 ++ np.2)) = some s := h
      cases h'
      exact rstripSlash_idem _
  have e0 : removeUnsafe (s.dropWhile isC0OrSpace) = s := by rw [h1, h2]
  have e1 : splitScheme s = s := by
    unfold splitScheme
    rw [findIdx?_eq_none_of_contains_false _ _ h3]
  have e2 : takeUntil '#' s = s := takeUntil_of_contains_false _ _ h5
  have e3 : takeUntil '?' s = s := takeUntil_of_contains_false _ _ h6
  have e4 : splitParams s = s := by unfold splitParams; rw [h4]; simp
  simp only [normalize_url, urlparseNetlocPath, e0, e1, e2, e3, e4, if_neg h7,
    List.nil_append]
  simp [hrs]

theorem normalize_url_idempotent_on_plain_witness :
    normalize_url "http://example.com/docs/".toList = some "example.com/docs".toList ∧
    normalize_url "example.com/docs".toList = some "example.com/docs".toList :=
  ⟨by decide,
   normalize_url_idempotent_on_plain "http://example.com/docs/".toList
     "example.com/docs".toList (by decide) (by decide) (by decide) (by decide)
     (by decide) (by decide) (by decide) (by decide)⟩

theorem simLE_total (sims : List ℚ) : ∀ i j, simLE sims i j ∨ simLE sims j i := by
  intro i j
  rcases lt_trichotomy (sims.getD i 0) (sims.getD j 0) with h | h | h
  · exact Or.inl (Or.inl h)
  · rcases Nat.le_total i j with hij | hij
    · exact Or.inl (Or.inr ⟨h, hij⟩)
    · exact Or.inr (Or.inr ⟨h.symm, hij⟩)
  · exact Or.inr (Or.inl h)

theorem simLE_trans (sims : List ℚ) :
    ∀ i j k, simLE sims i j → simLE sims j k → simLE sims i k := by
  intro i j k hij hjk
  rcases hij with h1 | ⟨e1, l1⟩ <;> rcases hjk with h2 | ⟨e2, l2⟩
  · exact Or.inl (h1.trans h2)
  · exact Or.inl (lt_of_lt_of_le h1 (le_of_eq e2))
  · exact Or.inl (lt_of_le_of_lt (le_of_eq e1) h2)
  · exact Or.inr ⟨e1.trans e2, l1.trans l2⟩

/-- The executable `argsortTop` order (before `[::-1]`/`take`) is one valid
`np.argsort` output. -/
theorem insertionSort_isArgsortOf (sims : List ℚ) :
    IsArgsortOf sims
      (List.insertionSort (simLE sims) (List.range sims.length)) := by
  haveI ht : IsTotal Nat (simLE sims) := ⟨simLE_total sims⟩
  haveI htr : IsTrans Nat (simLE sims) := ⟨simLE_trans sims⟩
  refine ⟨List.perm_insertionSort _ _, ?_⟩
  refine (List.sorted_insertionSort (simLE sims) (List.range sims.length)).imp ?_
  intro i j hij
  rcases hij with hlt | ⟨he, _⟩
  · exact le_of_lt hlt
  · exact le_of_eq he

/-- **C4** (amended): for every query, index and `top_k`, and for *every*
index order `np.argsort` may return (any ascending-by-similarity permutation
of the chunk indices — the unstable default quicksort fixes no tie order),
the search returns at most `top_k` results whose similarity scores are
non-increasing in output order; and the executable `search_by_similarity` is
exactly this construction at one such order.  (The originally claimed
earlier-chunk-first tie-break is false — see
`search_by_similarity_tie_order_cex` — and no fixed tie order holds in
general.) -/
theorem search_by_similarity_sorted (cos : List ℚ → List ℚ → ℚ) (q : List ℚ)
    (embs : List (List ℚ)) (texts : List String) (k : Nat) (order : List Nat)
    (horder : IsArgsortOf (embs.map (fun e => cos q e)) order) :
    (searchFromOrder (embs.map (fun e => cos q e)) texts k order).length ≤ k ∧
    List.Pairwise (fun p p' : String × ℚ => p'.2 ≤ p.2)
      (searchFromOrder (embs.map (fun e => cos q e)) texts k order) ∧
    search_by_similarity cos q embs texts k
      = searchFromOrder (embs.map (fun e => cos q e)) texts k
          (List.insertionSort (simLE (embs.map (fun e => cos q e)))
            (List.range (embs.map (fun e => cos q e)).length)) := by
  refine ⟨?_, ?_, ?_⟩
  · unfold searchFromOrder
    by_cases hc : embs.map (fun e => cos q e) = [] ∨
        (embs.map (fun e => cos q e)).length ≠ texts.length
    · rw [if_pos hc]; simp
    · rw [if_neg hc, List.length_map, List.length_take]
      exact min_le_left _ _
  · unfold searchFromOrder
    by_cases hc : embs.map (fun e => cos q e) = [] ∨
        (embs.map (fun e => cos q e)).length ≠ texts.length
    · rw [if_pos hc]; exact List.Pairwise.nil
    · rw [if_neg hc]
      exact List.pairwise_map.mpr
        ((List.pairwise_reverse.mpr horder.2).sublist (List.take_sublist _ _))
  · unfold search_by_similarity searchFromOrder argsortTop
    by_cases hc : embs = [] ∨ embs.length ≠ texts.length
    · rw [if_pos hc, if_pos (by simpa using hc)]
    · rw [if_neg hc, if_neg (by simpa using hc)]

/-- **C4** counterexample to the claimed tie-break: two chunks with identical
embeddings (hence equal cosine similarity for any query) come back with the
*later* chunk `chunkB` first, not the earlier `chunkA`. -/
theorem search_by_similarity_tie_order_cex :
    search_by_similarity dotQ [1, 0] [[1, 0], [1, 0]] ["chunkA", "chunkB"] 5
        = [("chunkB", 1), ("chunkA", 1)] := by
  simp [search_by_similarity, argsortTop, dotQ, List.insertionSort,
        List.orderedInsert, simLE, List.range, List.range.loop]

theorem search_by_similarity_sorted_witness :
    IsArgsortOf ([[(1 : ℚ), 0], [1, 0]].map (fun e => dotQ [1, 0] e)) [1, 0] ∧
    ((searchFromOrder ([[(1 : ℚ), 0], [1, 0]].map (fun e => dotQ [1, 0] e))
        ["a", "b"] 5 [1, 0]).length ≤ 5 ∧
     List.Pairwise (fun p p' : String × ℚ => p'.2 ≤ p.2)
       (searchFromOrder ([[(1 : ℚ), 0], [1, 0]].map (fun e => dotQ [1, 0] e))
         ["a", "b"] 5 [1, 0]) ∧
     search_by_similarity dotQ [1, 0] [[(1 : ℚ), 0], [1, 0]] ["a", "b"] 5
       = searchFromOrder ([[(1 : ℚ), 0], [1, 0]].map (fun e => dotQ [1, 0] e))
           ["a", "b"] 5
           (List.insertionSort
             (simLE ([[(1 : ℚ), 0], [1, 0]].map (fun e => dotQ [1, 0] e)))
             (List.range
               ([[(1 : ℚ), 0], [1, 0]].map (fun e => dotQ [1, 0] e)).length))) :=
  have horder :
      IsArgsortOf ([[(1 : ℚ), 0], [1, 0]].map (fun e => dotQ [1, 0] e)) [1, 0] :=
    ⟨by decide, by simp [List.pairwise_cons]⟩
  ⟨horder, search_by_similarity_sorted dotQ [1, 0] [[(1 : ℚ), 0], [1, 0]]
    ["a", "b"] 5 [1, 0] horder⟩



theorem kwStep_foldl_none (pages : List (Str × PageData)) (qws : List Str) :
    ∀ ranked : List (Str × Nat),
      ranked.foldl (kwStep pages qws) none = none := by
  intro ranked
  induction ranked with
  | nil => rfl
  | cons pu rest ih => simpa [kwStep] using ih

theorem kwStep_foldl_bounds (pages : List (Str × PageData)) (qws : List Str) :
    ∀ (ranked : List (Str × Nat)) (acc : List KwResult),
      (∀ r ∈ acc, 0 ≤ r.similarity ∧ r.similarity ≤ 1) →
      ∀ res, ranked.foldl (kwStep pages qws) (some acc) = some res →
        ∀ r ∈ res, 0 ≤ r.similarity ∧ r.similarity ≤ 1 := by
  intro ranked
  induction ranked with
  | nil =>
    intro acc hacc res hres
    cases hres
    exact hacc
  | cons pu rest ih =>
    intro acc hacc res hres
    rw [List.foldl_cons] at hres
    cases hstep : kwStep pages qws (some acc) pu with
    | none =>
      rw [hstep, kwStep_foldl_none] at hres
      exact Option.noConfusion hres
    | some acc' =>
      rw [hstep] at hres
      refine ih acc' ?_ res hres
      -- the step either keeps the accumulator or appends one bounded result
      unfold kwStep at hstep
      cases hnu : normalize_url pu.1 with
      | none =>
        simp only [hnu] at hstep
        exact Option.noConfusion hstep
      | some nu =>
        simp only [hnu] at hstep
        cases hpd : pages.lookup nu with
        | none =>
          simp only [hpd] at hstep
          cases hstep
          exact hacc
        | some pd =>
          simp only [hpd] at hstep
          cases hstep
          intro r hr
          rcases List.mem_append.mp hr with hr | hr
          · exact hacc r hr
          · rcases List.mem_singleton.mp hr with rfl
            constructor
            · exact le_min (div_nonneg (Nat.cast_nonneg _) (Nat.cast_nonneg _))
                (by norm_num)
            · exact min_le_right _ _

/-- **C10**: the keyword-fallback search never raises to its caller: for
every url and query it returns a (possibly empty) list; it returns the empty
list when the document has not been indexed (`doc_id not in doc_index`, the
internal `ValueError`), when the cache entry is missing (the `KeyError`), or
when `normalize_url` raises mid-loop — all swallowed by its own `except`;
and every similarity score it produces lies in [0, 1]. -/
theorem search_by_keywords_safe (query : Str) :
    (∀ cache, search_by_keywords none cache query = []) ∧
    (∀ index, search_by_keywords index none query = []) ∧
    (∀ index cache r, r ∈ search_by_keywords index cache query →
       0 ≤ r.similarity ∧ r.similarity ≤ 1) := by
  refine ⟨fun cache => rfl, fun index => ?_, fun index cache r hr => ?_⟩
  · cases index <;> rfl
  · cases index with
    | none => exact absurd hr (by simp [search_by_keywords])
    | some kw =>
      cases cache with
      | none => exact absurd hr (by simp [search_by_keywords])
      | some pages =>
        simp only [search_by_keywords] at hr
        split at hr
        · exact absurd hr (List.not_mem_nil r)
        next res heq =>
          exact kwStep_foldl_bounds pages (queryWords query) _ []
            (fun r h => absurd h (List.not_mem_nil r)) res heq r hr

/-- A concrete keyword search returning one result (its full Str fields),
checking the model end to end on a populated index. -/
example :
    (search_by_keywords
      (some ⟨[("rust".toList, ["http://h/x".toList])]⟩)
      (some [("h/x".toList,
        ⟨"http://h/x".toList, "T".toList, "rust docs\nother".toList⟩)])
      "rust rust!".toList).map (fun r => (r.url, r.title, r.text))
    = [("http://h/x".toList, "T".toList, "rust docs...".toList)] := by decide

def c10Idx : Option KeywordIndex := some ⟨[("rust".toList, ["http://h/x".toList])]⟩

def c10Cache : Option (List (Str × PageData)) :=
  some [("h/x".toList, ⟨"http://h/x".toList, "T".toList, "rust docs\nother".toList⟩)]

def c10Res : KwResult :=
  ⟨"http://h/x".toList, "T".toList, "rust docs...".toList,
   min (((1 : Nat) : ℚ) / (((max 1 1 : Nat)) : ℚ)) 1⟩

theorem search_by_keywords_safe_witness :
    0 ≤ c10Res.similarity ∧ c10Res.similarity ≤ 1 :=
  (search_by_keywords_safe "rust rust!".toList).2.2 c10Idx c10Cache c10Res
    (List.mem_singleton_self _)

/-! ## C6: the chunker preserves non-whitespace content in order -/

/-- The non-whitespace content of a string — the invariant quantity of
`chunk_text` ("the original text up to whitespace differences"). -/
def nsp (l : Str) : Str := l.filter (fun c => ¬ isPySpace c)

theorem nsp_append (l m : Str) : nsp (l ++ m) = nsp l ++ nsp m :=
  List.filter_append ..

@[simp]
theorem nsp_nil : nsp [] = [] := rfl

theorem nsp_cons_space (c : Char) (l : Str) (h : isPySpace c = true) :
    nsp (c :: l) = nsp l := by
  simp [nsp, List.filter_cons, h]

theorem nsp_cons (c : Char) (l : Str) : nsp (c :: l) = nsp [c] ++ nsp l := by
  by_cases h : isPySpace c <;> simp [nsp, List.filter_cons, h]

theorem splitOnNl_ne_nil (t : Str) : splitOnNl t ≠ [] := by
  cases t with
  | nil => simp [splitOnNl]
  | cons c rest =>
    unfold splitOnNl
    by_cases h : c = '\n'
    · simp [h]
    · simp only [h, if_false]
      cases splitOnNl rest <;> simp

theorem nsp_flatten_splitOnNl (t : Str) : nsp (splitOnNl t).flatten = nsp t := by
  induction t with
  | nil => rfl
  | cons c rest ih =>
    unfold splitOnNl
    by_cases h : c = '\n'
    · subst h
      rw [if_pos rfl, List.flatten_cons, List.nil_append, ih,
          nsp_cons_space _ _ (by decide)]
    · simp only [h, if_false]
      cases hs : splitOnNl rest with
      | nil => exact absurd hs (splitOnNl_ne_nil rest)
      | cons p ps =>
        rw [hs] at ih
        show nsp ((c :: p) :: ps).flatten = nsp (c :: rest)
        rw [List.flatten_cons, List.cons_append, nsp_cons c rest,
            nsp_cons c (p ++ ps.flatten), ← List.flatten_cons, ih]

theorem nsp_dropWhile_space (l : Str) :
    nsp (l.dropWhile isPySpace) = nsp l := by
  induction l with
  | nil => rfl
  | cons c rest ih =>
    by_cases h : isPySpace c
    · rw [List.dropWhile_cons_of_pos h, ih, nsp_cons_space _ _ h]
    · rw [List.dropWhile_cons_of_neg h]

theorem nsp_reverse (l : Str) : nsp l.reverse = (nsp l).reverse :=
  List.filter_reverse ..

theorem nsp_pyStrip (p : Str) : nsp (pyStrip p) = nsp p := by
  unfold pyStrip
  rw [nsp_reverse, nsp_dropWhile_space, nsp_reverse, List.reverse_reverse,
      nsp_dropWhile_space]

theorem nsp_flatten_paragraphsOf (t : Str) :
    nsp (paragraphsOf t).flatten = nsp t := by
  unfold paragraphsOf
  have h1 : ∀ ls : List Str,
      nsp (ls.filter (fun p => p ≠ [])).flatten = nsp ls.flatten := by
    intro ls
    induction ls with
    | nil => rfl
    | cons p ps ih =>
      rw [List.filter_cons]
      by_cases h : p = []
      · subst h
        simp only [ne_eq, not_true_eq_false, decide_False, Bool.false_eq_true,
          if_false]
        rw [ih, List.flatten_cons, List.nil_append]
      · simp only [ne_eq, h, not_false_eq_true, decide_True, if_true]
        rw [List.flatten_cons, List.flatten_cons, nsp_append, nsp_append, ih]
  have h2 : ∀ ls : List Str,
      nsp ((ls.map pyStrip).flatten) = nsp ls.flatten := by
    intro ls
    induction ls with
    | nil => rfl
    | cons p ps ih =>
      rw [List.map_cons, List.flatten_cons, List.flatten_cons, nsp_append,
          nsp_append, nsp_pyStrip, ih]
  rw [h1, h2, nsp_flatten_splitOnNl]

theorem nsp_flatten_sentAux (rest : Str) : ∀ (cur : Str) (inGap : Bool),
    nsp (sentAux cur inGap rest).flatten = nsp cur ++ nsp rest := by
  induction rest with
  | nil =>
    intro cur inGap
    cases inGap <;> simp [sentAux, nsp]
  | cons c rest ih =>
    intro cur inGap
    unfold sentAux
    cases inGap with
    | true =>
      rw [if_pos rfl]
      by_cases h : isPySpace c
      · rw [if_pos h, ih, nsp_cons_space _ _ h]
      · rw [if_neg h, List.flatten_cons, nsp_append, ih, nsp_cons c rest]
    | false =>
      rw [if_neg (by decide : ¬ (false = true))]
      by_cases h : (isPySpace c && endsTerm cur) = true
      · rw [if_pos h, ih, nsp_cons_space _ _ (Bool.and_elim_left h)]
      · rw [if_neg h, ih, nsp_append, nsp_cons c rest, List.append_assoc]

theorem nsp_flatten_splitSentences (p : Str) :
    nsp (splitSentences p).flatten = nsp p := by
  unfold splitSentences
  rw [nsp_flatten_sentAux]
  rfl

/-- The invariant quantity carried through `chunk_text`'s loop. -/
def accContent (s : ChunkAcc) : Str := nsp s.chunks.flatten ++ nsp s.cur

theorem accContent_addUnit (m : Nat) (s : ChunkAcc) (u : Str) :
    accContent (addUnit m s u) = accContent s ++ nsp u := by
  unfold addUnit accContent
  by_cases hfit : s.cur.length + u.length + 1 ≤ m
  · rw [if_pos hfit]
    by_cases hc : s.cur = []
    · simp [hc]
    · simp only [hc, if_false]
      rw [nsp_append, nsp_cons_space ' ' u (by decide), List.append_assoc]
  · rw [if_neg hfit]
    by_cases hc : s.cur = []
    · simp [hc]
    · simp only [hc, if_false]
      rw [List.flatten_append, nsp_append]
      simp [List.append_assoc]

theorem accContent_foldl_addUnit (m : Nat) (units : List Str) :
    ∀ s : ChunkAcc,
      accContent (units.foldl (addUnit m) s) = accContent s ++ nsp units.flatten := by
  induction units with
  | nil => intro s; simp
  | cons u us ih =>
    intro s
    rw [List.foldl_cons, ih, accContent_addUnit, List.flatten_cons, nsp_append,
        List.append_assoc]

theorem accContent_paraStep (m : Nat) (s : ChunkAcc) (p : Str) :
    accContent (paraStep m s p) = accContent s ++ nsp p := by
  unfold paraStep
  by_cases h : p.length > m
  · rw [if_pos h, accContent_foldl_addUnit, nsp_flatten_splitSentences]
  · rw [if_neg h, accContent_addUnit]

theorem accContent_foldl_paraStep (m : Nat) (paras : List Str) :
    ∀ s : ChunkAcc,
      accContent (paras.foldl (paraStep m) s) = accContent s ++ nsp paras.flatten := by
  induction paras with
  | nil => intro s; simp
  | cons p ps ih =>
    intro s
    rw [List.foldl_cons, ih, accContent_paraStep, List.flatten_cons, nsp_append,
        List.append_assoc]

/-- **C6**: concatenating the chunks of `chunk_text(text, max_length)` in
output order reconstructs the original text up to whitespace differences:
the non-whitespace characters, in order, are exactly those of the source.
(In particular chunk order follows source order.) -/
theorem chunk_text_content (text : Str) (maxLen : Nat) :
    nsp (chunk_text text maxLen).flatten = nsp text := by
  unfold chunk_text
  by_cases ht : text = []
  · simp [ht, nsp]
  · rw [if_neg ht]
    have h := accContent_foldl_paraStep maxLen (paragraphsOf text) ⟨[], []⟩
    have hinit : accContent (⟨[], []⟩ : ChunkAcc) = [] := rfl
    rw [hinit, List.nil_append, nsp_flatten_paragraphsOf] at h
    set fin := (paragraphsOf text).foldl (paraStep maxLen) ⟨[], []⟩ with hfin
    rw [List.flatten_append, nsp_append]
    by_cases hc : fin.cur = []
    · rw [if_pos hc]
      unfold accContent at h
      rw [hc] at h
      simpa using h
    · rw [if_neg hc]
      unfold accContent at h
      simpa using h

/-! ## C3: chunk length bound -/

/-- A chunk candidate is admissible: within the limit, or one unsplittable
sentence of an over-long paragraph of the source text. -/
def GoodU (maxLen : Nat) (text : Str) (u : Str) : Prop :=
  u.length ≤ maxLen ∨
    ∃ p ∈ paragraphsOf text, p.length > maxLen ∧ u ∈ splitSentences p

def GoodAcc (maxLen : Nat) (text : Str) (s : ChunkAcc) : Prop :=
  (∀ c ∈ s.chunks, GoodU maxLen text c) ∧ GoodU maxLen text s.cur

theorem addUnit_good (m : Nat) (t : Str) (s : ChunkAcc) (u : Str)
    (hu : GoodU m t u) (hs : GoodAcc m t s) : GoodAcc m t (addUnit m s u) := by
  unfold addUnit
  by_cases hfit : s.cur.length + u.length + 1 ≤ m
  · rw [if_pos hfit]
    refine ⟨hs.1, Or.inl ?_⟩
    by_cases hc : s.cur = []
    · rw [if_pos hc]
      show u.length ≤ m
      rw [hc] at hfit
      simp only [List.length_nil] at hfit
      omega
    · rw [if_neg hc]
      show (s.cur ++ ' ' :: u).length ≤ m
      rw [List.length_append, List.length_cons]
      omega
  · rw [if_neg hfit]
    refine ⟨?_, hu⟩
    by_cases hc : s.cur = []
    · rw [if_pos hc]; exact hs.1
    · rw [if_neg hc]
      intro c hcmem
      rcases List.mem_append.mp hcmem with h | h
      · exact hs.1 c h
      · rcases List.mem_singleton.mp h with rfl
        exact hs.2

theorem foldl_addUnit_good (m : Nat) (t : Str) :
    ∀ (units : List Str), (∀ u ∈ units, GoodU m t u) →
      ∀ s, GoodAcc m t s → GoodAcc m t (units.foldl (addUnit m) s) := by
  intro units
  induction units with
  | nil => intro _ s hs; exact hs
  | cons u us ih =>
    intro hu s hs
    rw [List.foldl_cons]
    exact ih (fun v hv => hu v (List.mem_cons_of_mem u hv)) _
      (addUnit_good m t s u (hu u (List.mem_cons_self u us)) hs)

theorem paraStep_good (m : Nat) (t : Str) (p : Str) (hp : p ∈ paragraphsOf t)
    (s : ChunkAcc) (hs : GoodAcc m t s) : GoodAcc m t (paraStep m s p) := by
  unfold paraStep
  by_cases h : p.length > m
  · rw [if_pos h]
    refine foldl_addUnit_good m t _ ?_ s hs
    intro u hu
    exact Or.inr ⟨p, hp, h, hu⟩
  · rw [if_neg h]
    exact addUnit_good m t s p (Or.inl (by omega)) hs

theorem foldl_paraStep_good (m : Nat) (t : Str) :
    ∀ (paras : List Str), (∀ p ∈ paras, p ∈ paragraphsOf t) →
      ∀ s, GoodAcc m t s → GoodAcc m t (paras.foldl (paraStep m) s) := by
  intro paras
  induction paras with
  | nil => intro _ s hs; exact hs
  | cons p ps ih =>
    intro hp s hs
    rw [List.foldl_cons]
    exact ih (fun q hq => hp q (List.mem_cons_of_mem p hq)) _
      (paraStep_good m t p (hp p (List.mem_cons_self p ps)) s hs)

/-- **C3**: every chunk emitted by `chunk_text(text, max_length)` has length
at most `max_length`, except that a longer chunk can only be a single
sentence (of an over-long paragraph) that itself exceeds the limit and was
passed through unsplit. -/
theorem chunk_text_chunk_bound (text : Str) (maxLen : Nat) (c : Str)
    (hc : c ∈ chunk_text text maxLen) :
    c.length ≤ maxLen ∨
      (c.length > maxLen ∧
        ∃ p ∈ paragraphsOf text, p.length > maxLen ∧ c ∈ splitSentences p) := by
  by_cases hlen : c.length ≤ maxLen
  · exact Or.inl hlen
  · refine Or.inr ⟨by omega, ?_⟩
    unfold chunk_text at hc
    by_cases ht : text = []
    · rw [if_pos ht] at hc; exact absurd hc (List.not_mem_nil c)
    · rw [if_neg ht] at hc
      have hacc : GoodAcc maxLen text
          ((paragraphsOf text).foldl (paraStep maxLen) ⟨[], []⟩) :=
        foldl_paraStep_good maxLen text (paragraphsOf text) (fun p hp => hp)
          ⟨[], []⟩ ⟨fun c h => absurd h (List.not_mem_nil c), Or.inl (by simp)⟩
      rcases List.mem_append.mp hc with h | h
      · rcases hacc.1 c h with hle | hex
        · omega
        · exact hex
      · by_cases hcur :
          ((paragraphsOf text).foldl (paraStep maxLen) ⟨[], []⟩).cur = []
        · rw [if_pos hcur] at h
          exact absurd h (List.not_mem_nil c)
        · rw [if_neg hcur] at h
          rcases List.mem_singleton.mp h with rfl
          rcases hacc.2 with hle | hex
          · omega
          · exact hex

theorem chunk_text_chunk_bound_witness :
    "aaaaa".toList ∈ chunk_text "aaaaa".toList 2 ∧
    ("aaaaa".toList.length ≤ 2 ∨
      ("aaaaa".toList.length > 2 ∧
        ∃ p ∈ paragraphsOf "aaaaa".toList, p.length > 2 ∧
          "aaaaa".toList ∈ splitSentences p)) :=
  ⟨by decide, chunk_text_chunk_bound "aaaaa".toList 2 "aaaaa".toList (by decide)⟩

/-! ## C2/C5: crawl loop invariants and termination -/

/-- The loop invariant of `crawl_documentation`. -/
def CrawlInv (s : CrawlSt) : Prop :=
  s.visited.Nodup ∧
  s.fetchedNorm = s.visited.reverse ∧
  s.pagesCount = s.visited.length ∧
  s.visited.length ≤ MAX_PAGES ∧
  (∀ w ∈ s.writes, w.value = w.vis + w.pend)

theorem crawlStep_done_eq (fetch : Url → Option Page) (excl : Url → Bool)
    (maxDepth : Nat) (s s' : CrawlSt)
    (h : crawlStep fetch excl maxDepth s = .done s') : s' = s := by
  unfold crawlStep at h
  split at h
  · cases h; rfl
  · split at h
    · cases h; rfl
    · split at h
      · exact absurd h (by simp)
      · split at h
        · exact absurd h (by simp)
        · split at h
          · exact absurd h (by simp)
          · split at h
            · exact absurd h (by simp)
            · split at h
              · split at h
                · exact absurd h (by simp)
                · exact absurd h (by simp)
              · exact absurd h (by simp)

theorem crawlStep_next_props (fetch : Url → Option Page) (excl : Url → Bool)
    (maxDepth : Nat) (s s' : CrawlSt)
    (h : crawlStep fetch excl maxDepth s = .next s') :
    (s'.visited = s.visited ∧ s'.fetchedNorm = s.fetchedNorm ∧
      s'.pagesCount = s.pagesCount ∧ s'.writes = s.writes ∧
      s'.toVisit.length < s.toVisit.length) ∨
    (∃ nurl, nurl ∉ s.visited ∧ s'.visited = nurl :: s.visited ∧
      s'.fetchedNorm = s.fetchedNorm ++ [nurl] ∧
      s'.pagesCount = s.pagesCount + 1 ∧ s.visited.length < MAX_PAGES ∧
      (s'.writes = s.writes ∨ ∃ w : TotalWrite, w.value = w.vis + w.pend ∧
        s'.writes = s.writes ++ [w])) := by
  unfold crawlStep at h
  split at h
  · exact absurd h (by simp)
  next cur depth rest heq =>
    split at h
    · exact absurd h (by simp)
    next hcap =>
      split at h
      · exact absurd h (by simp)
      next nurl hnorm =>
        split at h
        next hmem =>
          cases h
          exact Or.inl ⟨rfl, rfl, rfl, rfl, by rw [heq]; simp⟩
        next hmem =>
          split at h
          next hexcl =>
            cases h
            exact Or.inl ⟨rfl, rfl, rfl, rfl, by rw [heq]; simp⟩
          next hexcl =>
            split at h
            · cases h
              exact Or.inr ⟨nurl, hmem, rfl, rfl, rfl, by omega, Or.inl rfl⟩
            next page hfetch =>
              split at h
              · split at h
                · cases h
                  exact Or.inr ⟨nurl, hmem, rfl, rfl, rfl, by omega, Or.inl rfl⟩
                next nlinks hmap =>
                  cases h
                  exact Or.inr ⟨nurl, hmem, rfl, rfl, rfl, by omega,
                    Or.inr ⟨_, rfl, rfl⟩⟩
              · cases h
                exact Or.inr ⟨nurl, hmem, rfl, rfl, rfl, by omega, Or.inl rfl⟩

theorem crawlStep_next_inv (fetch : Url → Option Page) (excl : Url → Bool)
    (maxDepth : Nat) (s s' : CrawlSt)
    (h : crawlStep fetch excl maxDepth s = .next s') (hs : CrawlInv s) :
    CrawlInv s' := by
  obtain ⟨hnd, hfn, hpc, hle, hw⟩ := hs
  rcases crawlStep_next_props fetch excl maxDepth s s' h with
    ⟨hv, hf, hp, hwr, _⟩ | ⟨nurl, hmem, hv, hf, hp, hcap, hwr⟩
  · exact ⟨hv ▸ hnd, by rw [hf, hfn, hv], by rw [hp, hpc, hv], hv ▸ hle,
      hwr ▸ hw⟩
  · refine ⟨?_, ?_, ?_, ?_, ?_⟩
    · rw [hv]; exact List.Nodup.cons hmem hnd
    · rw [hf, hfn, hv, List.reverse_cons]
    · rw [hp, hpc, hv, List.length_cons]
    · rw [hv, List.length_cons]; omega
    · rcases hwr with hwr | ⟨w, hwv, hwr⟩
      · exact hwr ▸ hw
      · rw [hwr]
        intro x hx
        rcases List.mem_append.mp hx with hx | hx
        · exact hw x hx
        · rcases List.mem_singleton.mp hx with rfl
          exact hwv

theorem crawlLoop_inv (fetch : Url → Option Page) (excl : Url → Bool)
    (maxDepth : Nat) :
    ∀ (fuel : Nat) (s out : CrawlSt),
      crawlLoop fetch excl maxDepth fuel s = some (some out) →
      CrawlInv s → CrawlInv out := by
  intro fuel
  induction fuel with
  | zero =>
    intro s out h
    exact absurd h (by simp [crawlLoop])
  | succ n ih =>
    intro s out h hs
    unfold crawlLoop at h
    cases hstep : crawlStep fetch excl maxDepth s with
    | done s1 =>
      rw [hstep] at h
      have heqs : s1 = s := crawlStep_done_eq fetch excl maxDepth s s1 hstep
      subst heqs
      have h' : some (some s1) = some (some out) := h
      cases h'
      exact hs
    | fail =>
      rw [hstep] at h
      exact absurd ((Option.some.injEq _ _).mp h) (by simp)
    | next s1 =>
      rw [hstep] at h
      exact ih s1 out h (crawlStep_next_inv fetch excl maxDepth s s1 hstep hs)

theorem crawlLoop_term_aux (fetch : Url → Option Page) (excl : Url → Bool)
    (maxDepth : Nat) :
    ∀ (k t : Nat) (s : CrawlSt),
      MAX_PAGES - s.visited.length ≤ k → s.toVisit.length ≤ t →
      ∃ fuel r, crawlLoop fetch excl maxDepth fuel s = some r := by
  intro k
  induction k with
  | zero =>
    intro t s hk ht
    have hcap : MAX_PAGES ≤ s.visited.length := by
      unfold MAX_PAGES at hk ⊢; omega
    cases htv : s.toVisit with
    | nil => exact ⟨1, some s, by simp [crawlLoop, crawlStep, htv]⟩
    | cons hd tl =>
      obtain ⟨cur, depth⟩ := hd
      exact ⟨1, some s, by simp [crawlLoop, crawlStep, htv, if_pos hcap]⟩
  | succ k ihk =>
    intro t
    induction t with
    | zero =>
      intro s hk ht
      have htv : s.toVisit = [] := List.eq_nil_of_length_eq_zero (by omega)
      exact ⟨1, some s, by simp [crawlLoop, crawlStep, htv]⟩
    | succ t iht =>
      intro s hk ht
      cases hstep : crawlStep fetch excl maxDepth s with
      | done s1 => exact ⟨1, some s1, by simp [crawlLoop, hstep]⟩
      | fail => exact ⟨1, none, by simp [crawlLoop, hstep]⟩
      | next s1 =>
        rcases crawlStep_next_props fetch excl maxDepth s s1 hstep with
          ⟨hv, _, _, _, hlt⟩ | ⟨nurl, _, hv, _, _, hcap, _⟩
        · obtain ⟨fuel, r, hr⟩ := iht s1 (by rw [hv]; exact hk) (by omega)
          exact ⟨fuel + 1, r, by simp [crawlLoop, hstep, hr]⟩
        · obtain ⟨fuel, r, hr⟩ := ihk s1.toVisit.length s1
            (by rw [hv, List.length_cons]; omega) (le_refl _)
          exact ⟨fuel + 1, r, by simp [crawlLoop, hstep, hr]⟩

theorem crawlLoop_terminates (fetch : Url → Option Page) (excl : Url → Bool)
    (maxDepth : Nat) (s : CrawlSt) :
    ∃ fuel r, crawlLoop fetch excl maxDepth fuel s = some r :=
  crawlLoop_term_aux fetch excl maxDepth (MAX_PAGES - s.visited.length)
    s.toVisit.length s (le_refl _) (le_refl _)

theorem crawlInit_inv (baseUrl : Url) : CrawlInv (crawlInit baseUrl) := by
  refine ⟨List.nodup_nil, rfl, rfl, by simp [MAX_PAGES, crawlInit], ?_⟩
  intro w hw
  rcases List.mem_singleton.mp hw with rfl
  rfl

/-- **C2**: for every seed URL, `max_depth`, exclusion predicate and link
graph (`fetch`, cyclic graphs included), a crawl fetches each normalized URL
at most once and visits at most `MAX_PAGES` (50) distinct normalized URLs —
the fetch trace (in normalized form) is duplicate-free, equals the visited
set in visit order, and both are bounded by the cap — and the loop
terminates: finite fuel suffices to reach an exit (pending list drained or
cap reached) or the exceptional return. -/
theorem crawl_visit_bound_and_termination (fetch : Url → Option Page)
    (excl : Url → Bool) (maxDepth : Nat) (baseUrl : Url) :
    (∀ fuel out,
      crawl_documentation fetch excl maxDepth baseUrl fuel = some (some out) →
      out.fetchedNorm.Nodup ∧ out.fetchedNorm.length ≤ MAX_PAGES ∧
      out.visited.Nodup ∧ out.visited.length ≤ MAX_PAGES ∧
      out.fetchedNorm = out.visited.reverse) ∧
    (∃ fuel r, crawl_documentation fetch excl maxDepth baseUrl fuel = some r) := by
  constructor
  · intro fuel out h
    obtain ⟨hnd, hfn, hpc, hle, hw⟩ :=
      crawlLoop_inv fetch excl maxDepth fuel (crawlInit baseUrl) out h
        (crawlInit_inv baseUrl)
    refine ⟨?_, ?_, hnd, hle, hfn⟩
    · rw [hfn]; exact List.nodup_reverse.mpr hnd
    · rw [hfn, List.length_reverse]; exact hle
  · exact crawlLoop_terminates fetch excl maxDepth (crawlInit baseUrl)

def c2Fetch : Url → Option Page := fun _ => none

def c2Out : CrawlSt :=
  { visited := ["h/a".toList], toVisit := [], pagesCount := 1, pages := [],
    fetchedNorm := ["h/a".toList], writes := [⟨1, 0, 1⟩] }

theorem crawl_visit_bound_and_termination_witness :
    crawl_documentation c2Fetch (fun _ => false) 3 "http://h/a".toList 5
        = some (some c2Out) ∧
    c2Out.fetchedNorm.Nodup ∧ c2Out.fetchedNorm.length ≤ MAX_PAGES ∧
    c2Out.visited.Nodup ∧ c2Out.visited.length ≤ MAX_PAGES ∧
    c2Out.fetchedNorm = c2Out.visited.reverse :=
  ⟨by decide,
   (crawl_visit_bound_and_termination c2Fetch (fun _ => false) 3
     "http://h/a".toList).1 5 c2Out (by decide)⟩

/-- **C5** (amended): every `total_pages` write performed *during* the crawl
loop (including the initial estimate) equals `len(visited) + len(to_visit)`
at the moment of the write; the *final* write equals `pages_count`, which is
the number of visited pages, and coincides with visited+pending only when the
loop drained its pending list — and the overall written sequence need not be
non-decreasing (see `crawl_total_pages_not_monotone`). -/
theorem crawl_total_pages_writes (fetch : Url → Option Page)
    (excl : Url → Bool) (maxDepth : Nat) (baseUrl : Url) (fuel : Nat)
    (out : CrawlSt)
    (h : crawl_documentation fetch excl maxDepth baseUrl fuel = some (some out)) :
    (∀ w ∈ out.writes, w.value = w.vis + w.pend) ∧
    (finalTotalWrite out).value = out.pagesCount ∧
    out.pagesCount = out.visited.length ∧
    (out.toVisit = [] →
      (finalTotalWrite out).value = out.visited.length + out.toVisit.length) := by
  obtain ⟨hnd, hfn, hpc, hle, hw⟩ :=
    crawlLoop_inv fetch excl maxDepth fuel (crawlInit baseUrl) out h
      (crawlInit_inv baseUrl)
  refine ⟨hw, rfl, hpc, ?_⟩
  intro he
  show out.pagesCount = out.visited.length + out.toVisit.length
  simp [he, hpc]

/-- The duplicate-link graph of the C5 counterexample: page `a` links twice
to `b`; `b` has no links. -/
def c5Fetch : Url → Option Page := fun u =>
  if u = "http://h/a".toList then
    some ⟨[], ["http://h/b".toList, "http://h/b".toList]⟩
  else if u = "http://h/b".toList then some ⟨[], []⟩
  else none

/-- **C5** counterexample: on the duplicate-link graph the sequence of values
written to `total_pages` over the whole crawl is `[1, 3, 3, 2]` — the final
write (`pages_count = 2`) undercuts the earlier estimate 3, so the write
sequence is not non-decreasing. -/
theorem crawl_total_pages_not_monotone :
    ((crawl_documentation c5Fetch (fun _ => false) 3 "http://h/a".toList
        10).bind id).map totalWritesSeq = some [1, 3, 3, 2] ∧
    ¬ List.Chain' (fun a b : Nat => a ≤ b) [1, 3, 3, 2] := by
  constructor
  · decide
  · simp [List.chain'_cons]

def c5WFetch : Url → Option Page := fun _ => none

def c5WOut : CrawlSt :=
  { visited := ["h/w".toList], toVisit := [], pagesCount := 1, pages := [],
    fetchedNorm := ["h/w".toList], writes := [⟨1, 0, 1⟩] }

theorem crawl_total_pages_writes_witness :
    crawl_documentation c5WFetch (fun _ => false) 3 "http://h/w".toList 5
        = some (some c5WOut) ∧
    ((∀ w ∈ c5WOut.writes, w.value = w.vis + w.pend) ∧
     (finalTotalWrite c5WOut).value = c5WOut.pagesCount ∧
     c5WOut.pagesCount = c5WOut.visited.length ∧
     (c5WOut.toVisit = [] →
       (finalTotalWrite c5WOut).value
         = c5WOut.visited.length + c5WOut.toVisit.length)) :=
  ⟨by decide,
   crawl_total_pages_writes c5WFetch (fun _ => false) 3 "http://h/w".toList 5
     c5WOut (by decide)⟩
